import Mathlib

/-!
Verification of the search/highlight and line-transformation core of the
Velt editor component (`src/core/VeltEditor.ts`).

Strings are modelled as lists of UTF-16-like code units (`List Char`);
JavaScript string operations (`indexOf`, `substring`, `toLowerCase`,
`replace`, `trim`, …) are embedded as executable functions on such lists.
A compiled JavaScript `RegExp` object is modelled abstractly as a function
that, given the subject text and a starting offset (`lastIndex`), returns
the first match at or after that offset as an `(index, length)` pair;
`new RegExp(pattern, flags)` throwing a `SyntaxError` on malformed patterns
is modelled by a compile function returning `none`.
-/

/-- Model of a JavaScript string: a list of code units. -/
abbrev Str := List Char

/-- Model of a compiled `RegExp`: given the subject text and a start offset
(the regex's `lastIndex`), produce the first match at or after that offset
as `(index, length)`, or `none` when there is no further match. -/
abbrev Matcher := Str → Nat → Option (Nat × Nat)

/-- Model of `new RegExp(pattern, ignoreCase)`: returns `none` when the
pattern is syntactically invalid (the constructor throws). -/
abbrev Compile := Str → Bool → Option Matcher

/-- Case folding used by the search code: `toLowerCase` applied when the
query is case-insensitive (`VeltEditor.countMatches`, lines 698-701). -/
def foldCase (caseSensitive : Bool) (s : Str) : Str :=
  if caseSensitive then s else s.map Char.toLower

/-- Boolean test that `pre` is a leading segment of `s`. -/
def strStarts : Str → Str → Bool
  | [], _ => true
  | _ :: _, [] => false
  | a :: pre, b :: s => a = b && strStarts pre s

/-- First position `i` with `pos ≤ i < pos + steps` satisfying `test`,
scanning upward from `pos`. -/
def firstPosAux (test : Nat → Bool) : Nat → Nat → Option Nat
  | 0, _ => none
  | steps + 1, pos => if test pos then some pos else firstPosAux test steps (pos + 1)

/-- JavaScript `content.indexOf(pat, pos)` (for non-empty `pat`): the first
offset `i ≥ pos` at which `pat` occurs in `content`, scanning positions up
to `content.length`. -/
def indexOfFrom (content pat : Str) (pos : Nat) : Option Nat :=
  firstPosAux (fun i => strStarts pat (content.drop i)) (content.length + 1 - pos) pos

/-- The non-overlapping left-to-right scan shared by the literal and
whole-word search loops (`countMatches` lines 707-713 and
`getCurrentMatchIndex` lines 764-770): repeatedly find the first position
`≥ pos` satisfying `test`, record it, and continue at that position plus the
match length `L`.  `fuel` bounds the number of matches found; since each
found match advances `pos` by `L ≥ 1`, a fuel of `n + 1` (for text length
`n`) is never exhausted. -/
def scanAux (test : Nat → Bool) (L n : Nat) : Nat → Nat → List Nat
  | 0, _ => []
  | fuel + 1, pos =>
    match firstPosAux test (n + 1 - pos) pos with
    | none => []
    | some i => i :: scanAux test L n fuel (i + L)

/-- Positions of literal-mode matches: the exhaustive non-overlapping
left-to-right `indexOf` scan over the case-folded text and pattern
(`countMatches` lines 695-713). -/
def literalPositions (content pat : Str) (caseSensitive : Bool) : List Nat :=
  let sc := foldCase caseSensitive content
  let sp := foldCase caseSensitive pat
  scanAux (fun i => strStarts sp (sc.drop i)) pat.length content.length
    (content.length + 1) 0

/-- JavaScript `\w`: ASCII letters, digits and underscore. -/
def isWordChar (c : Char) : Bool := c.isAlphanum || c = '_'

/-- JavaScript `\b` at offset `j` of `s`: word-ness differs between the
code unit before `j` and the one at `j` (out-of-range counts as non-word). -/
def wordBoundaryAt (s : Str) (j : Nat) : Bool :=
  let before := if j = 0 then false else isWordChar (s.getD (j - 1) ' ')
  let after := isWordChar (s.getD j ' ')
  before != after

/-- Whole-word mode match test at offset `i`: the escaped literal pattern
occurs at `i` and both ends sit on a word boundary (the
`\b<escaped>\b` regex built at `countMatches` line 704). -/
def wwMatchAt (content pat : Str) (i : Nat) : Bool :=
  strStarts pat (content.drop i) && wordBoundaryAt content i &&
    wordBoundaryAt content (i + pat.length)

/-- Positions of whole-word-mode matches: the global-regex scan of the
`\b<escaped>\b` pattern over the case-folded text (`countMatches`
lines 703-706). -/
def wwPositions (content pat : Str) (caseSensitive : Bool) : List Nat :=
  let sc := foldCase caseSensitive content
  let sp := foldCase caseSensitive pat
  scanAux (fun i => wwMatchAt sc sp i) pat.length content.length
    (content.length + 1) 0

/-- The compiled regex that an escaped literal pattern denotes, as built by
`customSearchHighlight` lines 60-63: at each call, the first literal
occurrence at or after `lastIndex` in the (case-folded) text. -/
def litMatcher (pat : Str) (caseSensitive : Bool) : Matcher :=
  fun text li =>
    let sc := foldCase caseSensitive text
    let sp := foldCase caseSensitive pat
    (firstPosAux (fun i => strStarts sp (sc.drop i)) (text.length + 1 - li) li).map
      (fun i => (i, pat.length))

/-- The compiled regex that the `\b<escaped>\b` whole-word pattern denotes
(`customSearchHighlight` lines 57-59). -/
def wwMatcher (pat : Str) (caseSensitive : Bool) : Matcher :=
  fun text li =>
    let sc := foldCase caseSensitive text
    let sp := foldCase caseSensitive pat
    (firstPosAux (fun i => wwMatchAt sc sp i) (text.length + 1 - li) li).map
      (fun i => (i, pat.length))

/-- The bare `while ((match = regex.exec(text)) !== null)` loop used by
`customSearchHighlight` (lines 66-71) and by the regexp branch of
`getCurrentMatchIndex` (lines 745-747).  After a match at `index` of length
`len`, `lastIndex` becomes `index + len` — with NO adjustment for
zero-length matches.  `fuel` counts loop iterations; `none` means the loop
has not finished within `fuel` iterations (for a matcher that keeps
producing a zero-length match at the same offset, it never finishes). -/
def execLoop (re : Matcher) (content : Str) : Nat → Nat → Option (List (Nat × Nat))
  | 0, _ => none
  | fuel + 1, li =>
    match re content li with
    | none => some []
    | some (i, len) =>
      (execLoop re content fuel (i + len)).map (fun ms => (i, len) :: ms)

/-- JavaScript `content.match(regex)` with a global regex: like the exec
loop, but the ECMAScript algorithm advances `lastIndex` by one past a
zero-length match, so it always terminates; `content.length + 2` iterations
always suffice. -/
def jsMatchAllAux (re : Matcher) (content : Str) : Nat → Nat → List (Nat × Nat)
  | 0, _ => []
  | fuel + 1, li =>
    match re content li with
    | none => []
    | some (i, len) =>
      (i, len) :: jsMatchAllAux re content fuel (if len = 0 then i + 1 else i + len)

/-- JavaScript `content.match(regex)` (list of matches, `[]` for `null`). -/
def jsMatchAll (re : Matcher) (content : Str) : List (Nat × Nat) :=
  jsMatchAllAux re content (content.length + 2) 0

/-- The semantics of the regex `c*` (e.g. the query `"a*"`): at any offset
`li ≤ text.length` it matches the maximal run of `c` starting there — in
particular a zero-length match when `text[li] ≠ c`. -/
def starMatcher (c : Char) : Matcher :=
  fun text li =>
    if li ≤ text.length then some (li, (text.drop li).takeWhile (· = c) |>.length)
    else none

/-- A compile function whose only valid pattern is `"a*"`, compiled to its
regex semantics; used to instantiate the exec-loop theorems. -/
def compileStar : Compile :=
  fun pat _ => if pat = ['a', '*'] then some (starMatcher 'a') else none

/-- Search options as passed to `find`/`countMatches`
(`caseSensitive`, `regexp`, `wholeWord`). -/
structure SearchOpts where
  caseSensitive : Bool
  regexp : Bool
  wholeWord : Bool

/-- `VeltEditor.countMatches` (lines 682-721): the total number of matches
of `searchText` in `content`.  The regexp branch compiles the user pattern
(`new RegExp` throwing is the `none` case, caught to a count of 0) and
counts `content.match(regex)`; otherwise the text and pattern are
case-folded and either the whole-word regex scan or the literal `indexOf`
loop counts the matches. -/
def countMatches (compile : Compile) (content searchText : Str)
    (opts : SearchOpts) : Nat :=
  if searchText = [] then 0
  else if opts.regexp then
    match compile searchText (!opts.caseSensitive) with
    | none => 0
    | some re => (jsMatchAll re content).length
  else if opts.wholeWord then
    (wwPositions content searchText opts.caseSensitive).length
  else
    (literalPositions content searchText opts.caseSensitive).length

/-- The for-loop of `getCurrentMatchIndex` (lines 774-788): walk the match
positions with running 1-based index; return `i + 1` for the first match
that contains the cursor (`matchPos ≤ cursorPos ≤ matchPos + L`) or starts
after it (`cursorPos < matchPos`); past all matches return `total`
(the number of matches). -/
def currentIndexFrom (cursorPos L : Nat) : List Nat → Nat → Nat → Nat
  | [], _, total => total
  | p :: rest, i, total =>
    if cursorPos ≥ p ∧ cursorPos ≤ p + L then i + 1
    else if cursorPos < p then i + 1
    else currentIndexFrom cursorPos L rest (i + 1) total

/-- `VeltEditor.getCurrentMatchIndex` (lines 726-793): 1-based index of the
current match.  Returns 0 for an empty query or when `countMatches` is 0;
otherwise collects the match positions (regexp mode: the bare exec loop,
which may fail to terminate — the `none` result; a regex-constructor throw
is caught to 1) and runs the cursor loop with `L = searchText.length`. -/
def getCurrentMatchIndex (compile : Compile) (content searchText : Str)
    (opts : SearchOpts) (cursorPos fuel : Nat) : Option Nat :=
  if searchText = [] then some 0
  else
    let total := countMatches compile content searchText opts
    if total = 0 then some 0
    else if opts.regexp then
      match compile searchText (!opts.caseSensitive) with
      | none => some 1
      | some re =>
        (execLoop re content fuel 0).map (fun ms =>
          currentIndexFrom cursorPos searchText.length (ms.map (·.1)) 0 ms.length)
    else if opts.wholeWord then
      let ps := wwPositions content searchText opts.caseSensitive
      some (currentIndexFrom cursorPos searchText.length ps 0 ps.length)
    else
      let ps := literalPositions content searchText opts.caseSensitive
      some (currentIndexFrom cursorPos searchText.length ps 0 ps.length)

/-- The update step of the `customSearchHighlight` state field on a
`setCustomSearch` effect (lines 36-91): an empty query clears the
decorations; otherwise a regex is built per mode (an invalid user pattern
is caught to no decorations) and the exec loop collects all matches, each
decorated with whether the cursor lies within it.  `none` means the exec
loop did not finish within `fuel` iterations. -/
def customSearchHighlight (compile : Compile) (searchText : Str)
    (opts : SearchOpts) (cursorPos : Nat) (content : Str) (fuel : Nat) :
    Option (List (Nat × Nat × Bool)) :=
  if searchText = [] then some []
  else
    let matcher? : Option Matcher :=
      if opts.regexp then compile searchText (!opts.caseSensitive)
      else if opts.wholeWord then some (wwMatcher searchText opts.caseSensitive)
      else some (litMatcher searchText opts.caseSensitive)
    match matcher? with
    | none => some []
    | some re =>
      (execLoop re content fuel 0).map (List.map (fun m =>
        (m.1, m.1 + m.2, decide (m.1 ≤ cursorPos ∧ cursorPos ≤ m.1 + m.2))))

/-- The editor state visible to the search entry points: document content,
the stored `SearchQuery`, the custom search decorations, and the main
selection (`from ≤ to`). -/
structure EditorState where
  content : Str
  storedQuery : Str
  storedOpts : SearchOpts
  decorations : List (Nat × Nat × Bool)
  selFrom : Nat
  selTo : Nat

/-- `VeltEditor.clearSearch` (lines 669-677): store an empty query and clear
the custom decorations; the document is untouched. -/
def clearSearch (st : EditorState) : EditorState :=
  { st with storedQuery := [], decorations := [] }

/-- `VeltEditor.find` (lines 491-527): empty search text clears the search
and returns zero count and index; otherwise the query is stored, the custom
highlight is recomputed from the cursor (`selection.main.from`), and the
match count and current index are computed.  `none` propagates a
non-terminating match enumeration. -/
def find (compile : Compile) (fuel : Nat) (st : EditorState) (searchText : Str)
    (opts : SearchOpts) : Option ((Nat × Nat) × EditorState) :=
  if searchText = [] then some ((0, 0), clearSearch st)
  else
    let st1 : EditorState := { st with storedQuery := searchText, storedOpts := opts }
    let cursorPos := st.selFrom
    match customSearchHighlight compile searchText opts cursorPos st.content fuel with
    | none => none
    | some decos =>
      match getCurrentMatchIndex compile st.content searchText opts cursorPos fuel with
      | none => none
      | some idx =>
        some ((countMatches compile st.content searchText opts, idx),
          { st1 with decorations := decos })

/-- Witness for C3: the compile function that rejects every pattern (as the
host regex engine does for the malformed pattern `"("`). -/
def compileNone : Compile := fun _ _ => none

/-- A concrete editor state used to instantiate the search theorems. -/
def sampleState : EditorState :=
  { content := ['a', 'b', 'c'], storedQuery := [], storedOpts := ⟨false, false, false⟩,
    decorations := [], selFrom := 0, selTo := 0 }

/-- Index of the first match position the cursor has not passed, i.e. the
first `p` with `cursorPos ≤ p + L` (the combined condition of the two early
returns in the `getCurrentMatchIndex` for-loop). -/
def firstHit (cursorPos L : Nat) : List Nat → Option Nat
  | [] => none
  | p :: rest =>
    if cursorPos ≤ p + L then some 0 else (firstHit cursorPos L rest).map (· + 1)

/-- The counting loop of `detectLineEnding` (lines 1549-1560): a `'\r'`
immediately followed by `'\n'` counts once as CRLF (the loop skips the
`'\n'`), a lone `'\r'` as CR, a lone `'\n'` as LF.  Returns
`(crlfCount, crCount, lfCount)`. -/
def countTerminators : Str → Nat × Nat × Nat
  | '\r' :: '\n' :: rest =>
    let counts := countTerminators rest
    (counts.1 + 1, counts.2.1, counts.2.2)
  | '\r' :: rest =>
    let counts := countTerminators rest
    (counts.1, counts.2.1 + 1, counts.2.2)
  | '\n' :: rest =>
    let counts := countTerminators rest
    (counts.1, counts.2.1, counts.2.2 + 1)
  | _ :: rest => countTerminators rest
  | [] => (0, 0, 0)

/-- JavaScript `content.includes('\r\n')`. -/
def containsCRLF : Str → Bool
  | '\r' :: '\n' :: _ => true
  | _ :: rest => containsCRLF rest
  | [] => false

/-- `VeltEditor.detectLineEnding` (lines 1532-1589): classify the document
as `"LF"`, `"CRLF"`, `"CR"` or `"MIXED"`.  Percentages are computed as
exact rationals in place of the source's double-precision division (the
comparisons decided here are far from the rounding boundary). -/
def detectLineEnding (content : Str) : String :=
  let hasCRLF := containsCRLF content
  let hasCR := content.contains '\r' && !containsCRLF content
  let hasLF := content.contains '\n' && !containsCRLF content
  if !hasCRLF && !hasCR && !hasLF then "LF"
  else
    let counts := countTerminators content
    let crlfCount := counts.1
    let crCount := counts.2.1
    let lfCount := counts.2.2
    let total := crlfCount + crCount + lfCount
    if total = 0 then "LF"
    else
      let crlfPercent : ℚ := (crlfCount : ℚ) / (total : ℚ) * 100
      let crPercent : ℚ := (crCount : ℚ) / (total : ℚ) * 100
      let lfPercent : ℚ := (lfCount : ℚ) / (total : ℚ) * 100
      let typesPresent := (if crlfCount > 0 then 1 else 0) +
        (if crCount > 0 then 1 else 0) + (if lfCount > 0 then 1 else 0)
      if typesPresent > 1 ∧ min crlfPercent (min crPercent lfPercent) > 10 then
        "MIXED"
      else if crlfCount ≥ crCount ∧ crlfCount ≥ lfCount then "CRLF"
      else if crCount ≥ lfCount then "CR"
      else "LF"

/-- JavaScript `content.replace(/\r\n/g, '\n')`: the left-to-right
non-overlapping replacement of each CRLF pair by LF. -/
def replaceCRLFwithLF : Str → Str
  | [] => []
  | [c] => [c]
  | c :: d :: rest =>
    if c = '\r' ∧ d = '\n' then '\n' :: replaceCRLFwithLF rest
    else c :: replaceCRLFwithLF (d :: rest)

/-- JavaScript `content.replace(/\r/g, '\n')`. -/
def replaceCRwithLF (s : Str) : Str :=
  s.map (fun c => if c = '\r' then '\n' else c)

/-- JavaScript `content.replace(/\n/g, '\r\n')`. -/
def replaceLFwithCRLF : Str → Str
  | [] => []
  | c :: rest =>
    if c = '\n' then '\r' :: '\n' :: replaceLFwithCRLF rest
    else c :: replaceLFwithCRLF rest

/-- The LF-normalisation shared by the conversion commands
(`convertToLF`/`convertToCRLF`/`convertToCR`, lines 1470, 1491, 1513):
replace CRLF by LF, then lone CR by LF. -/
def normalizeToLF (s : Str) : Str := replaceCRwithLF (replaceCRLFwithLF s)

/-- `VeltEditor.convertToLF` (lines 1466-1482): `none` when the conversion
changes nothing (no edit is dispatched), otherwise the converted content. -/
def convertToLF (content : Str) : Option Str :=
  let converted := normalizeToLF content
  if content = converted then none else some converted

/-- `VeltEditor.convertToCRLF` (lines 1487-1504): normalise to LF, expand
LF to CRLF; `none` when the content is unchanged. -/
def convertToCRLF (content : Str) : Option Str :=
  let converted := replaceLFwithCRLF (normalizeToLF content)
  if content = converted then none else some converted

/-- The document content after a conversion command: unchanged when no edit
was dispatched. -/
def applyConv (f : Str → Option Str) (content : Str) : Str :=
  (f content).getD content

/-- JavaScript `\s` restricted to the code units that occur in this code's
inputs: space, tab, newline, carriage return, vertical tab, form feed. -/
def isJsWhitespace (c : Char) : Bool :=
  c = ' ' || c = '\t' || c = '\n' || c = '\r' || c = '\x0b' || c = '\x0c'

/-- JavaScript `s.trim()`: strip leading and trailing whitespace. -/
def trimStr (s : Str) : Str :=
  ((s.dropWhile isJsWhitespace).reverse.dropWhile isJsWhitespace).reverse

/-- JavaScript `s.replace(/^\s/, '')`: drop at most one leading whitespace
code unit (`toggleLineComment` line 993). -/
def dropOneLeadingWS : Str → Str
  | [] => []
  | c :: rest => if isJsWhitespace c then rest else c :: rest

/-- JavaScript `s.substring(a, b)`: clamp both arguments to `[0, length]`
(negative values to 0) and swap them when out of order. -/
def jsSubstring (s : Str) (a b : Int) : Str :=
  let n := s.length
  let lo := min a.toNat n
  let hi := min b.toNat n
  (s.take (max lo hi)).drop (min lo hi)

/-- The line rewrite of `VeltEditor.toggleLineComment` (lines 978-1009).
If the trimmed line starts with the comment marker, the first occurrence of
the marker is removed together with at most one directly following
whitespace code unit (`indexOf` returning -1 is kept as the source's
`substring` arithmetic on -1, though it cannot occur under the branch
guard); otherwise `marker + ' '` is inserted after the leading
indentation. -/
def toggleLineCommentText (marker line : Str) : Str :=
  if strStarts marker (trimStr line) then
    let ci : Int := match indexOfFrom line marker 0 with
      | some i => (i : Int)
      | none => -1
    jsSubstring line 0 ci ++
      dropOneLeadingWS (jsSubstring line (ci + marker.length) line.length)
  else
    let indent := line.takeWhile isJsWhitespace
    indent ++ marker ++ [' '] ++ line.drop indent.length

/-- `VeltEditor.getCommentSyntax` (lines 1014-1044): the single-line
comment marker for the active language (lower-cased; absent language maps
to the empty string and hence the default marker). -/
def getCommentSyntax (currentLanguage : Option Str) : Str :=
  let lang := match currentLanguage with
    | some l => l.map Char.toLower
    | none => []
  if ["javascript".toList, "typescript".toList, "jsx".toList, "tsx".toList,
      "c".toList, "cpp".toList, "java".toList, "rust".toList, "go".toList,
      "swift".toList, "kotlin".toList, "csharp".toList, "php".toList].contains lang
  then "//".toList
  else if ["python".toList, "ruby".toList, "bash".toList, "shell".toList,
      "yaml".toList, "yml".toList, "perl".toList, "r".toList].contains lang
  then "#".toList
  else if ["html".toList, "xml".toList].contains lang then "<!--".toList
  else if ["css".toList, "scss".toList, "sass".toList, "less".toList].contains lang
  then "/*".toList
  else if (["sql".toList] : List Str).contains lang then "--".toList
  else "//".toList

/-- Offset of the start of 0-based line `i` in a document given as its list
of lines (lines are joined by a single `'\n'`; CodeMirror's `line(i+1).from`). -/
def lineStart (lines : List Str) (i : Nat) : Nat :=
  ((lines.take i).map (fun l => l.length + 1)).sum

/-- CodeMirror's `doc.lineAt(pos).number - 1`: the 0-based index of the line
containing offset `pos`; a position sitting exactly on a line's end (before
the `'\n'`) belongs to that line. -/
def lineAtIdx : List Str → Nat → Nat
  | [], _ => 0
  | l :: rest, pos =>
    if pos ≤ l.length then 0 else lineAtIdx rest (pos - (l.length + 1)) + 1

/-- Total document length of a list of lines joined by `'\n'`
(CodeMirror's `doc.length`). -/
def joinLen : List Str → Nat
  | [] => 0
  | [l] => l.length
  | l :: l2 :: rest => l.length + 1 + joinLen (l2 :: rest)

/-- The line-extraction loop shared by the range transforms
(`for (let i = startLine; i <= endLine; i++) lines.push(...)`). -/
def extractLines (lines : List Str) (s e : Nat) : List Str :=
  (lines.drop s).take (e + 1 - s)

/-- The per-line removal of `outdentSelection` (lines 1094-1104): two
leading spaces, else one leading tab, else one leading space, checked in
that order; 0 when the line has no leading whitespace of these forms. -/
def outdentRemoval (l : Str) : Nat :=
  if strStarts [' ', ' '] l then 2
  else if strStarts ['\t'] l then 1
  else if strStarts [' '] l then 1
  else 0

/-- The per-line loop of `outdentSelection` over 0-based line indices
(`i` is the current index): returns the transformed lines and the running
`totalRemoved`. -/
def outdentLines : List Str → Nat → Nat → Nat → List Str × Nat
  | [], _, _, _ => ([], 0)
  | l :: rest, i, s, e =>
    let tail := outdentLines rest (i + 1) s e
    if s ≤ i ∧ i ≤ e then
      (l.drop (outdentRemoval l) :: tail.1, outdentRemoval l + tail.2)
    else (l :: tail.1, tail.2)

/-- `VeltEditor.outdentSelection` (lines 1081-1113): resolve the touched
line range from the selection, remove the leading whitespace per line, and
— only when something was removed — dispatch the new lines together with
the new selection `(anchor, head)`; the anchor is
`Math.max(startLine.from, selection.from - totalRemoved)`, the head is
`selection.to - totalRemoved` with no clamping (modelled in `Int` since the
subtraction can go negative). -/
def outdentSelection (lines : List Str) (selFrom selTo : Nat) :
    Option (List Str × Int × Int) :=
  let s := lineAtIdx lines selFrom
  let e := lineAtIdx lines selTo
  let result := outdentLines lines 0 s e
  if result.2 = 0 then none
  else some (result.1,
    max ((lineStart lines s : Int)) ((selFrom : Int) - result.2),
    (selTo : Int) - result.2)

/-- Code-point lexicographic comparison, the fixed total order abstracting
`a.localeCompare(b)` (the spec allows any total order here). -/
def lexCompare : Str → Str → Ordering
  | [], [] => .eq
  | [], _ :: _ => .lt
  | _ :: _, [] => .gt
  | a :: as, b :: bs =>
    if a < b then .lt else if b < a then .gt else lexCompare as bs

/-- The ascending sort comparator `(a, b) => a.localeCompare(b)` as the
ordering test "`a` may come before `b`". -/
def leAsc (a b : Str) : Bool := lexCompare a b ≠ .gt

/-- The descending sort comparator `(a, b) => b.localeCompare(a)`. -/
def leDesc (a b : Str) : Bool := lexCompare b a ≠ .gt

/-- Sorted insertion; together with `sortBy` this embeds
`Array.prototype.sort` with a comparator that is a total order (equal
elements compare equal only when identical, so the sorted permutation is
unique and any correct sort produces exactly this list). -/
def insertSorted (le : Str → Str → Bool) (x : Str) : List Str → List Str
  | [] => [x]
  | y :: t => if le x y then x :: y :: t else y :: insertSorted le x t

/-- `[...lines].sort(comparator)`. -/
def sortBy (le : Str → Str → Bool) : List Str → List Str
  | [] => []
  | x :: t => insertSorted le x (sortBy le t)

/-- The range body shared by `sortLinesAscending`/`sortLinesDescending`
(lines 1231-1254 and 1278-1301): extract the lines of `[s, e]`, sort them,
and dispatch the replacement of exactly `[line(s).from, line(e).to)` plus
the new selection `(fromPos, fromPos + sortedText.length)` only when the
sorted lines differ element-wise from the originals (`none` = no
dispatch).  The text edit replaces whole lines, so the resulting document
is the line-list splice. -/
def sortRangeBy (le : Str → Str → Bool) (lines : List Str) (s e : Nat) :
    Option (List Str × Nat × Nat) :=
  let seg := extractLines lines s e
  let sorted := sortBy le seg
  if seg = sorted then none
  else some (lines.take s ++ sorted ++ lines.drop (e + 1),
    lineStart lines s, lineStart lines s + joinLen sorted)

/-- The shared body of `sortLinesAscending`/`sortLinesDescending`
(lines 1214-1302): resolve the touched line range — the whole document
when the selection is empty, else the selection's line range — and run the
sort body on it. -/
def sortLinesBy (le : Str → Str → Bool) (lines : List Str)
    (selFrom selTo : Nat) : Option (List Str × Nat × Nat) :=
  let s := if selFrom = selTo then 0 else lineAtIdx lines selFrom
  let e := if selFrom = selTo then lines.length - 1 else lineAtIdx lines selTo
  sortRangeBy le lines s e

/-- `VeltEditor.sortLinesAscending` (lines 1214-1255). -/
def sortLinesAscending : List Str → Nat → Nat → Option (List Str × Nat × Nat) :=
  sortLinesBy leAsc

/-- `VeltEditor.sortLinesDescending` (lines 1261-1302). -/
def sortLinesDescending : List Str → Nat → Nat → Option (List Str × Nat × Nat) :=
  sortLinesBy leDesc

/- ===== theorems ===== -/

/-- C2: the claim says every match enumeration terminates; but the bare
exec loop of `customSearchHighlight` and `getCurrentMatchIndex` never
advances `lastIndex` past a zero-length match.  For the valid regex `a*`
over the document `"b"`, the first match is empty at offset 0 and
`lastIndex` stays 0, so no amount of fuel finishes the loop: both the
highlight recomputation and the current-index computation run forever. -/
theorem execLoop_a_star_never_terminates :
    ∀ fuel : Nat,
      execLoop (starMatcher 'a') ['b'] fuel 0 = none ∧
      customSearchHighlight compileStar ['a', '*']
        ⟨false, true, false⟩ 0 ['b'] fuel = none ∧
      getCurrentMatchIndex compileStar ['b'] ['a', '*']
        ⟨false, true, false⟩ 0 fuel = none := by
  have base : ∀ fuel : Nat, execLoop (starMatcher 'a') ['b'] fuel 0 = none := by
    intro fuel
    induction fuel with
    | zero => rfl
    | succ n ih =>
      show (execLoop (starMatcher 'a') ['b'] n 0).map _ = none
      rw [ih]
      rfl
  intro fuel
  refine ⟨base fuel, ?_, ?_⟩
  · show (execLoop (starMatcher 'a') ['b'] fuel 0).map _ = none
    rw [base fuel]
    rfl
  · show (execLoop (starMatcher 'a') ['b'] fuel 0).map _ = none
    rw [base fuel]
    rfl

/-- C3: a syntactically invalid regex pattern (compile returns `none` for
either flag value) in regexp mode yields a match count of 0 and a current
index of 0 from `find`, with no exception propagating, and the highlight
recomputation yields an empty decoration set. -/
theorem invalid_regex_yields_zero (compile : Compile) (pat : Str)
    (cs ww : Bool) (cursorPos fuel : Nat) (st : EditorState)
    (hpat : pat ≠ []) (hbad : ∀ b, compile pat b = none) :
    countMatches compile st.content pat ⟨cs, true, ww⟩ = 0 ∧
    getCurrentMatchIndex compile st.content pat ⟨cs, true, ww⟩ cursorPos fuel
      = some 0 ∧
    customSearchHighlight compile pat ⟨cs, true, ww⟩ cursorPos st.content fuel
      = some [] ∧
    find compile fuel st pat ⟨cs, true, ww⟩ =
      some ((0, 0),
        { st with storedQuery := pat, storedOpts := ⟨cs, true, ww⟩,
                  decorations := [] }) := by
  have hcount : countMatches compile st.content pat ⟨cs, true, ww⟩ = 0 := by
    unfold countMatches
    simp [hpat, hbad]
  have hidx : ∀ cp, getCurrentMatchIndex compile st.content pat ⟨cs, true, ww⟩
      cp fuel = some 0 := by
    intro cp
    unfold getCurrentMatchIndex
    simp [hpat, hcount]
  have hdeco : ∀ cp, customSearchHighlight compile pat ⟨cs, true, ww⟩ cp
      st.content fuel = some [] := by
    intro cp
    unfold customSearchHighlight
    simp [hpat, hbad]
  refine ⟨hcount, hidx cursorPos, hdeco cursorPos, ?_⟩
  unfold find
  simp [hpat, hdeco st.selFrom, hidx st.selFrom, hcount]

theorem invalid_regex_yields_zero_witness :
    (['('] : Str) ≠ [] ∧
    (countMatches compileNone sampleState.content ['('] ⟨false, true, false⟩ = 0 ∧
     getCurrentMatchIndex compileNone sampleState.content ['(']
       ⟨false, true, false⟩ 0 5 = some 0 ∧
     customSearchHighlight compileNone ['('] ⟨false, true, false⟩ 0
       sampleState.content 5 = some [] ∧
     find compileNone 5 sampleState ['('] ⟨false, true, false⟩ =
       some ((0, 0),
         { sampleState with storedQuery := ['('], storedOpts := ⟨false, true, false⟩,
                            decorations := [] })) :=
  ⟨by decide, invalid_regex_yields_zero compileNone ['('] false false 0 5
    sampleState (by decide) (fun _ => rfl)⟩

/-- C10: `find` with the empty search text returns count 0 and index 0,
clears the stored query and all match decorations, and leaves the document
content (and selection) unchanged. -/
theorem find_empty_clears (compile : Compile) (fuel : Nat) (st : EditorState)
    (opts : SearchOpts) :
    find compile fuel st [] opts = some ((0, 0), clearSearch st) ∧
    (clearSearch st).content = st.content ∧
    (clearSearch st).storedQuery = [] ∧
    (clearSearch st).decorations = [] ∧
    (clearSearch st).selFrom = st.selFrom ∧
    (clearSearch st).selTo = st.selTo :=
  ⟨rfl, rfl, rfl, rfl, rfl, rfl⟩

theorem strStarts_iff_take (p s : Str) :
    strStarts p s = true ↔ s.take p.length = p := by
  induction p generalizing s with
  | nil => simp [strStarts]
  | cons a pre ih =>
    cases s with
    | nil => simp [strStarts]
    | cons b t =>
      simp only [strStarts, Bool.and_eq_true, decide_eq_true_eq, List.length_cons,
        List.take_succ_cons, List.cons.injEq, ih]
      constructor
      · rintro ⟨h1, h2⟩; exact ⟨h1.symm, h2⟩
      · rintro ⟨h1, h2⟩; exact ⟨h1.symm, h2⟩

theorem strStarts_length_le {p s : Str} (h : strStarts p s = true) :
    p.length ≤ s.length := by
  have := (strStarts_iff_take p s).mp h
  calc p.length = (s.take p.length).length := by rw [this]
    _ ≤ s.length := by simp

theorem firstPosAux_some {test : Nat → Bool} :
    ∀ {steps pos i : Nat}, firstPosAux test steps pos = some i →
      pos ≤ i ∧ i < pos + steps ∧ test i = true ∧
        ∀ j, pos ≤ j → j < i → test j = false := by
  intro steps
  induction steps with
  | zero => intro pos i h; simp [firstPosAux] at h
  | succ n ih =>
    intro pos i h
    unfold firstPosAux at h
    by_cases ht : test pos
    · simp [ht] at h
      subst h
      exact ⟨le_refl _, by omega, ht, fun j h1 h2 => absurd (lt_of_le_of_lt h1 h2) (lt_irrefl _)⟩
    · simp [ht] at h
      obtain ⟨h1, h2, h3, h4⟩ := ih h
      refine ⟨by omega, by omega, h3, fun j hj1 hj2 => ?_⟩
      rcases Nat.eq_or_lt_of_le hj1 with rfl | hlt
      · exact Bool.eq_false_iff.mpr ht
      · exact h4 j hlt hj2

theorem firstPosAux_none {test : Nat → Bool} :
    ∀ {steps pos : Nat}, firstPosAux test steps pos = none →
      ∀ j, pos ≤ j → j < pos + steps → test j = false := by
  intro steps
  induction steps with
  | zero => intro pos _ j h1 h2; omega
  | succ n ih =>
    intro pos h j h1 h2
    unfold firstPosAux at h
    by_cases ht : test pos
    · simp [ht] at h
    · simp [ht] at h
      rcases Nat.eq_or_lt_of_le h1 with rfl | hlt
      · exact Bool.eq_false_iff.mpr ht
      · exact ih h j hlt (by omega)

theorem scanAux_mem_ge {test : Nat → Bool} {L n : Nat} :
    ∀ {fuel pos x : Nat}, x ∈ scanAux test L n fuel pos → pos ≤ x := by
  intro fuel
  induction fuel with
  | zero => intro pos x h; simp [scanAux] at h
  | succ m ih =>
    intro pos x h
    unfold scanAux at h
    cases hf : firstPosAux test (n + 1 - pos) pos with
    | none => rw [hf] at h; simp at h
    | some i =>
      rw [hf] at h
      obtain ⟨hi, _, _, _⟩ := firstPosAux_some hf
      rcases List.mem_cons.mp h with rfl | hmem
      · exact hi
      · have := ih hmem
        omega

theorem scanAux_chain {test : Nat → Bool} {L n : Nat} :
    ∀ fuel pos, List.Chain' (fun a b => a + L ≤ b) (scanAux test L n fuel pos) := by
  intro fuel
  induction fuel with
  | zero => intro pos; simp [scanAux]
  | succ m ih =>
    intro pos
    unfold scanAux
    cases hf : firstPosAux test (n + 1 - pos) pos with
    | none => simp
    | some i =>
      refine List.chain'_cons'.mpr ⟨?_, ih (i + L)⟩
      intro y hy
      exact scanAux_mem_ge (List.mem_of_mem_head? hy)

theorem scanAux_mem_test {test : Nat → Bool} {L n : Nat} :
    ∀ {fuel pos x : Nat}, x ∈ scanAux test L n fuel pos → test x = true := by
  intro fuel
  induction fuel with
  | zero => intro pos x h; simp [scanAux] at h
  | succ m ih =>
    intro pos x h
    unfold scanAux at h
    cases hf : firstPosAux test (n + 1 - pos) pos with
    | none => rw [hf] at h; simp at h
    | some i =>
      rw [hf] at h
      rcases List.mem_cons.mp h with rfl | hmem
      · exact (firstPosAux_some hf).2.2.1
      · exact ih hmem

theorem scanAux_cover {test : Nat → Bool} {L n : Nat} (hL : 1 ≤ L)
    (htest : ∀ j, n ≤ j → test j = false) :
    ∀ fuel pos, n + 1 ≤ fuel + pos →
      ∀ j, pos ≤ j → test j = true →
        ∃ p ∈ scanAux test L n fuel pos, p ≤ j ∧ j < p + L := by
  intro fuel
  induction fuel with
  | zero =>
    intro pos hfuel j hj ht
    have : n ≤ j := by omega
    rw [htest j this] at ht
    exact absurd ht (by simp)
  | succ m ih =>
    intro pos hfuel j hj ht
    unfold scanAux
    cases hf : firstPosAux test (n + 1 - pos) pos with
    | none =>
      exfalso
      by_cases hrange : j < pos + (n + 1 - pos)
      · rw [firstPosAux_none hf j hj hrange] at ht
        exact absurd ht (by simp)
      · have : n ≤ j := by omega
        rw [htest j this] at ht
        exact absurd ht (by simp)
    | some i =>
      obtain ⟨hi1, hi2, hi3, hi4⟩ := firstPosAux_some hf
      have hile : i ≤ j := by
        by_contra hc
        push_neg at hc
        rw [hi4 j hj hc] at ht
        exact absurd ht (by simp)
      by_cases hcov : j < i + L
      · exact ⟨i, List.mem_cons_self _ _, hile, hcov⟩
      · have hrec := ih (i + L) (by omega) j (by omega) ht
        obtain ⟨p, hp, hple, hplt⟩ := hrec
        exact ⟨p, List.mem_cons_of_mem _ hp, hple, hplt⟩

theorem foldCase_length (cs : Bool) (s : Str) :
    (foldCase cs s).length = s.length := by
  unfold foldCase
  cases cs <;> simp

theorem foldCase_drop (cs : Bool) (s : Str) (k : Nat) :
    foldCase cs (s.drop k) = (foldCase cs s).drop k := by
  unfold foldCase
  cases cs <;> simp [List.map_drop]

theorem foldCase_take (cs : Bool) (s : Str) (k : Nat) :
    foldCase cs (s.take k) = (foldCase cs s).take k := by
  unfold foldCase
  cases cs <;> simp [List.map_take]

/-- C4: for every text and non-empty literal (non-regex, non-whole-word)
query, the computed literal match positions are non-overlapping and
ascending (consecutive positions at least the query length apart — each
found match consumes its full length before the scan continues), every
match lies within the text and its substring equals the query after
case-folding (exact equality when `caseSensitive`, since `foldCase true` is
the identity), the scan is exhaustive (every occurrence of the folded query
overlaps some reported match), and `countMatches` in literal mode counts
exactly these positions. -/
theorem literal_scan_spec (compile : Compile) (content pat : Str) (cs : Bool)
    (hpat : pat ≠ []) :
    List.Chain' (fun p q => p + pat.length ≤ q) (literalPositions content pat cs) ∧
    (∀ p ∈ literalPositions content pat cs,
       p + pat.length ≤ content.length ∧
       foldCase cs ((content.drop p).take pat.length) = foldCase cs pat) ∧
    (∀ j, strStarts (foldCase cs pat) ((foldCase cs content).drop j) = true →
       ∃ p ∈ literalPositions content pat cs, p ≤ j ∧ j < p + pat.length) ∧
    countMatches compile content pat ⟨cs, false, false⟩ =
      (literalPositions content pat cs).length := by
  have hL : 1 ≤ pat.length := by
    cases pat with
    | nil => exact absurd rfl hpat
    | cons a t => simp
  have hsp : (foldCase cs pat).length = pat.length := foldCase_length cs pat
  have hsc : (foldCase cs content).length = content.length := foldCase_length cs content
  have htest : ∀ j, content.length ≤ j →
      strStarts (foldCase cs pat) ((foldCase cs content).drop j) = false := by
    intro j hj
    by_contra hc
    have hb : strStarts (foldCase cs pat) ((foldCase cs content).drop j) = true := by
      cases h : strStarts (foldCase cs pat) ((foldCase cs content).drop j)
      · exact absurd h hc
      · rfl
    have hlen := strStarts_length_le hb
    rw [List.length_drop, hsc, hsp] at hlen
    omega
  refine ⟨?_, ?_, ?_, ?_⟩
  · exact scanAux_chain _ 0
  · intro p hp
    have ht := scanAux_mem_test hp
    have hlen := strStarts_length_le ht
    rw [List.length_drop, hsc, hsp] at hlen
    have hplt : p + pat.length ≤ content.length := by
      by_cases hcase : p ≤ content.length
      · omega
      · exfalso
        rw [htest p (by omega)] at ht
        exact absurd ht (by simp)
    refine ⟨hplt, ?_⟩
    have htake := (strStarts_iff_take _ _).mp ht
    rw [hsp] at htake
    calc foldCase cs ((content.drop p).take pat.length)
        = (foldCase cs (content.drop p)).take pat.length := foldCase_take cs _ _
      _ = ((foldCase cs content).drop p).take pat.length := by rw [foldCase_drop]
      _ = foldCase cs pat := htake
  · intro j hj
    exact scanAux_cover hL htest (content.length + 1) 0 (by omega) j (Nat.zero_le j) hj
  · unfold countMatches
    simp [hpat]

theorem literal_scan_spec_witness :
    ("cat".toList : Str) ≠ [] ∧
    (List.Chain' (fun p q => p + "cat".toList.length ≤ q)
       (literalPositions "concatenate cat scatter".toList "cat".toList false) ∧
     (∀ p ∈ literalPositions "concatenate cat scatter".toList "cat".toList false,
        p + "cat".toList.length ≤ "concatenate cat scatter".toList.length ∧
        foldCase false (("concatenate cat scatter".toList.drop p).take "cat".toList.length)
          = foldCase false "cat".toList) ∧
     (∀ j, strStarts (foldCase false "cat".toList)
         ((foldCase false "concatenate cat scatter".toList).drop j) = true →
        ∃ p ∈ literalPositions "concatenate cat scatter".toList "cat".toList false,
          p ≤ j ∧ j < p + "cat".toList.length) ∧
     countMatches compileNone "concatenate cat scatter".toList "cat".toList
       ⟨false, false, false⟩ =
       (literalPositions "concatenate cat scatter".toList "cat".toList false).length) :=
  ⟨by decide, literal_scan_spec compileNone "concatenate cat scatter".toList
    "cat".toList false (by decide)⟩

theorem currentIndexFrom_eq_firstHit (c L : Nat) :
    ∀ (ps : List Nat) (i total : Nat),
      currentIndexFrom c L ps i total =
        match firstHit c L ps with
        | some k => i + k + 1
        | none => total := by
  intro ps
  induction ps with
  | nil => intro i total; rfl
  | cons p rest ih =>
    intro i total
    unfold currentIndexFrom firstHit
    by_cases h : c ≤ p + L
    · by_cases h2 : c ≥ p
      · simp [h, h2]
      · have h3 : c < p := by omega
        simp [h, h2, h3]
    · have h2 : ¬ c < p := by omega
      have h3 : ¬ (c ≥ p ∧ c ≤ p + L) := by omega
      simp only [if_neg h3, if_neg h2, ih]
      cases hf : firstHit c L rest with
      | none => simp [h]
      | some k => simp [h]; omega

theorem currentIndexFrom_of_some {c L k : Nat} {ps : List Nat} (i total : Nat)
    (hf : firstHit c L ps = some k) :
    currentIndexFrom c L ps i total = i + k + 1 := by
  rw [currentIndexFrom_eq_firstHit, hf]

theorem currentIndexFrom_of_none {c L : Nat} {ps : List Nat} (i total : Nat)
    (hf : firstHit c L ps = none) :
    currentIndexFrom c L ps i total = total := by
  rw [currentIndexFrom_eq_firstHit, hf]

theorem firstHit_bound {c L : Nat} :
    ∀ {ps : List Nat} {k : Nat}, firstHit c L ps = some k → k < ps.length := by
  intro ps
  induction ps with
  | nil => intro k h; simp [firstHit] at h
  | cons p rest ih =>
    intro k h
    unfold firstHit at h
    by_cases hc : c ≤ p + L
    · simp [hc] at h
      simp only [List.length_cons]
      omega
    · simp [hc] at h
      obtain ⟨k', hk', rfl⟩ := h
      have := ih hk'
      simp
      omega

theorem firstHit_mono {L c c' : Nat} (hcc : c ≤ c') :
    ∀ {ps : List Nat} {k' : Nat}, firstHit c' L ps = some k' →
      ∃ k ≤ k', firstHit c L ps = some k := by
  intro ps
  induction ps with
  | nil => intro k' h; simp [firstHit] at h
  | cons p rest ih =>
    intro k' h
    unfold firstHit at h ⊢
    by_cases hc' : c' ≤ p + L
    · have hc : c ≤ p + L := by omega
      simp [hc' ] at h
      exact ⟨0, by omega, by simp [hc]⟩
    · simp [hc'] at h
      obtain ⟨j', hj', rfl⟩ := h
      by_cases hc : c ≤ p + L
      · exact ⟨0, by omega, by simp [hc]⟩
      · obtain ⟨k, hk, hfk⟩ := ih hj'
        exact ⟨k + 1, by omega, by simp [hc, hfk]⟩

theorem firstHit_none_iff {c L : Nat} :
    ∀ {ps : List Nat}, firstHit c L ps = none ↔ ∀ p ∈ ps, p + L < c := by
  intro ps
  induction ps with
  | nil => simp [firstHit]
  | cons p rest ih =>
    unfold firstHit
    by_cases hc : c ≤ p + L
    · simp [hc]
    · simp [hc, ih]
      omega

/-- C5: for a fixed non-empty match list, the 1-based current-match index
computed by the `getCurrentMatchIndex` loop is monotone in the cursor
position — moving the cursor forward never decreases the index — it never
exceeds the match count, and once the cursor has passed every match it
reports the count (the last index). -/
theorem currentIndex_monotone (ps : List Nat) (L c c' : Nat)
    (hne : ps ≠ []) (hcc : c ≤ c') :
    currentIndexFrom c L ps 0 ps.length ≤ currentIndexFrom c' L ps 0 ps.length ∧
    currentIndexFrom c L ps 0 ps.length ≤ ps.length ∧
    ((∀ p ∈ ps, p + L < c) → currentIndexFrom c L ps 0 ps.length = ps.length) := by
  have hbound : currentIndexFrom c L ps 0 ps.length ≤ ps.length := by
    cases hf : firstHit c L ps with
    | none => rw [currentIndexFrom_of_none 0 ps.length hf]
    | some k =>
      rw [currentIndexFrom_of_some 0 ps.length hf]
      have := firstHit_bound hf
      omega
  refine ⟨?_, hbound, ?_⟩
  · cases hf' : firstHit c' L ps with
    | none =>
      rw [currentIndexFrom_of_none 0 ps.length hf']
      exact hbound
    | some k' =>
      obtain ⟨k, hk, hfk⟩ := firstHit_mono hcc hf'
      rw [currentIndexFrom_of_some 0 ps.length hfk,
        currentIndexFrom_of_some 0 ps.length hf']
      omega
  · intro hpast
    rw [currentIndexFrom_of_none 0 ps.length (firstHit_none_iff.mpr hpast)]

theorem currentIndex_monotone_witness :
    ([0, 5] : List Nat) ≠ [] ∧ (1 : Nat) ≤ 6 ∧
    (currentIndexFrom 1 3 [0, 5] 0 ([0, 5] : List Nat).length ≤
       currentIndexFrom 6 3 [0, 5] 0 ([0, 5] : List Nat).length ∧
     currentIndexFrom 1 3 [0, 5] 0 ([0, 5] : List Nat).length ≤
       ([0, 5] : List Nat).length ∧
     ((∀ p ∈ ([0, 5] : List Nat), p + 3 < 1) →
        currentIndexFrom 1 3 [0, 5] 0 ([0, 5] : List Nat).length =
          ([0, 5] : List Nat).length)) :=
  ⟨by decide, by decide, currentIndex_monotone [0, 5] 3 1 6 (by decide) (by decide)⟩

/-- C1: evaluating `detectLineEnding` at the claim's own example
`"a\r\nb\r\nc\n"`.  The terminator counts are 2 CRLF, 0 CR, 1 LF — two
terminator types are present and the minority share is 33% > 10% — yet the
result is `"CRLF"`, not the claimed `"MIXED"`: the code takes the minimum
over all three percentages including the absent type's 0%, so the `MIXED`
branch (whose own comment says "If more than one type exists (more than 10%
minority), it's mixed") is unreachable whenever any one type is absent. -/
theorem detectLineEnding_example_not_mixed :
    countTerminators ['a', '\r', '\n', 'b', '\r', '\n', 'c', '\n'] = (2, 0, 1) ∧
    detectLineEnding ['a', '\r', '\n', 'b', '\r', '\n', 'c', '\n'] = "CRLF" ∧
    "CRLF" ≠ "MIXED" := by
  refine ⟨by decide, ?_, by decide⟩
  unfold detectLineEnding
  norm_num [countTerminators, containsCRLF]

theorem replaceCRLFwithLF_no_cr : ∀ {s : Str}, '\r' ∉ s → replaceCRLFwithLF s = s := by
  intro s
  induction s with
  | nil => intro _; rfl
  | cons c rest ih =>
    intro h
    simp only [List.mem_cons, not_or] at h
    obtain ⟨h1, h2⟩ := h
    cases rest with
    | nil => rfl
    | cons d rest2 =>
      have hcond : ¬(c = '\r' ∧ d = '\n') := fun hc => h1 hc.1.symm
      show (if c = '\r' ∧ d = '\n' then '\n' :: replaceCRLFwithLF rest2
        else c :: replaceCRLFwithLF (d :: rest2)) = c :: d :: rest2
      rw [if_neg hcond, ih h2]

theorem replaceCRwithLF_no_cr {s : Str} (h : '\r' ∉ s) :
    replaceCRwithLF s = s := by
  unfold replaceCRwithLF
  conv_rhs => rw [← List.map_id s]
  apply List.map_congr_left
  intro c hc
  have hne : ¬ c = '\r' := fun hce => h (hce ▸ hc)
  simp [hne]

theorem normalizeToLF_no_cr {s : Str} (h : '\r' ∉ s) :
    normalizeToLF s = s := by
  unfold normalizeToLF
  rw [replaceCRLFwithLF_no_cr h, replaceCRwithLF_no_cr h]

theorem crlf_roundtrip : ∀ {s : Str}, '\r' ∉ s →
    replaceCRLFwithLF (replaceLFwithCRLF s) = s := by
  intro s
  induction s with
  | nil => intro _; rfl
  | cons c rest ih =>
    intro h
    simp only [List.mem_cons, not_or] at h
    obtain ⟨h1, h2⟩ := h
    by_cases hn : c = '\n'
    · subst hn
      show replaceCRLFwithLF
        (if ('\n' : Char) = '\n' then '\r' :: '\n' :: replaceLFwithCRLF rest
         else '\n' :: replaceLFwithCRLF rest) = '\n' :: rest
      rw [if_pos rfl]
      show (if ('\r' : Char) = '\r' ∧ ('\n' : Char) = '\n' then
          '\n' :: replaceCRLFwithLF (replaceLFwithCRLF rest)
        else '\r' :: replaceCRLFwithLF ('\n' :: replaceLFwithCRLF rest)) = '\n' :: rest
      rw [if_pos ⟨rfl, rfl⟩, ih h2]
    · show replaceCRLFwithLF
        (if c = '\n' then '\r' :: '\n' :: replaceLFwithCRLF rest
         else c :: replaceLFwithCRLF rest) = c :: rest
      rw [if_neg hn]
      cases hW : replaceLFwithCRLF rest with
      | nil =>
        have hrest : rest = [] := by
          have := ih h2
          rw [hW] at this
          exact this.symm
        subst hrest
        rfl
      | cons d ds =>
        show (if c = '\r' ∧ d = '\n' then '\n' :: replaceCRLFwithLF ds
          else c :: replaceCRLFwithLF (d :: ds)) = c :: rest
        have hcond : ¬(c = '\r' ∧ d = '\n') := fun hc => (h1 hc.1.symm : False)
        rw [if_neg hcond, ← hW, ih h2]

/-- C9: for a document whose terminators are all LF (no CR anywhere),
`convertToLF` dispatches no edit, and the sequence `convertToLF`,
`convertToCRLF`, `convertToLF` leaves the document content identical to the
original. -/
theorem lf_crlf_lf_roundtrip (content : Str) (h : '\r' ∉ content) :
    convertToLF content = none ∧
    applyConv convertToLF
      (applyConv convertToCRLF (applyConv convertToLF content)) = content := by
  have hnorm : normalizeToLF content = content := normalizeToLF_no_cr h
  have h1 : convertToLF content = none := by
    unfold convertToLF
    simp [hnorm]
  refine ⟨h1, ?_⟩
  have e1 : applyConv convertToLF content = content := by
    unfold applyConv
    rw [h1]
    rfl
  rw [e1]
  by_cases hch : content = replaceLFwithCRLF content
  · have h2 : convertToCRLF content = none := by
      unfold convertToCRLF
      rw [hnorm]
      simp [← hch]
    have e2 : applyConv convertToCRLF content = content := by
      unfold applyConv
      rw [h2]
      rfl
    rw [e2, e1]
  · have h2 : convertToCRLF content = some (replaceLFwithCRLF content) := by
      unfold convertToCRLF
      rw [hnorm]
      simp [hch]
    have e2 : applyConv convertToCRLF content = replaceLFwithCRLF content := by
      unfold applyConv
      rw [h2]
      rfl
    rw [e2]
    have hnorm2 : normalizeToLF (replaceLFwithCRLF content) = content := by
      unfold normalizeToLF
      rw [crlf_roundtrip h, replaceCRwithLF_no_cr h]
    have h3 : convertToLF (replaceLFwithCRLF content) = some content := by
      have hne2 : ¬ replaceLFwithCRLF content = content := fun he => hch he.symm
      unfold convertToLF
      rw [hnorm2]
      simp [hne2]
    unfold applyConv
    rw [h3]
    rfl

theorem lf_crlf_lf_roundtrip_witness :
    ('\r' ∉ ("a\nb\nc\n".toList : Str)) ∧
    (convertToLF "a\nb\nc\n".toList = none ∧
     applyConv convertToLF
       (applyConv convertToCRLF (applyConv convertToLF "a\nb\nc\n".toList)) =
       "a\nb\nc\n".toList) :=
  ⟨by decide, lf_crlf_lf_roundtrip "a\nb\nc\n".toList (by decide)⟩

theorem dropWhile_append_all {p : Char → Bool} :
    ∀ {A B : Str}, (∀ a ∈ A, p a = true) →
      List.dropWhile p (A ++ B) = List.dropWhile p B := by
  intro A
  induction A with
  | nil => intro B _; rfl
  | cons a A' ih =>
    intro B h
    have ha : p a = true := h a (List.mem_cons_self a A')
    show List.dropWhile p (a :: (A' ++ B)) = _
    rw [List.dropWhile_cons, if_pos ha]
    exact ih (fun x hx => h x (List.mem_cons_of_mem a hx))

theorem dropWhile_append_not_all {p : Char → Bool} :
    ∀ {A B : Str}, (∃ a ∈ A, p a = false) →
      List.dropWhile p (A ++ B) = List.dropWhile p A ++ B := by
  intro A
  induction A with
  | nil => intro B h; simp at h
  | cons a A' ih =>
    intro B h
    by_cases ha : p a = true
    · have h' : ∃ x ∈ A', p x = false := by
        obtain ⟨x, hx, hpx⟩ := h
        rcases List.mem_cons.mp hx with rfl | hmem
        · rw [ha] at hpx
          exact absurd hpx (by simp)
        · exact ⟨x, hmem, hpx⟩
      show List.dropWhile p (a :: (A' ++ B)) = _
      rw [List.dropWhile_cons, if_pos ha, List.dropWhile_cons, if_pos ha]
      exact ih h'
    · show List.dropWhile p (a :: (A' ++ B)) = _
      rw [List.dropWhile_cons, if_neg ha, List.dropWhile_cons, if_neg ha]
      rfl

theorem firstPosAux_eq_some {test : Nat → Bool} :
    ∀ {steps pos m : Nat}, pos ≤ m → m < pos + steps → test m = true →
      (∀ j, pos ≤ j → j < m → test j = false) →
      firstPosAux test steps pos = some m := by
  intro steps
  induction steps with
  | zero => intro pos m h1 h2 _ _; omega
  | succ n ih =>
    intro pos m h1 h2 h3 h4
    unfold firstPosAux
    rcases Nat.eq_or_lt_of_le h1 with rfl | hlt
    · rw [if_pos h3]
    · have hp : test pos = false := h4 pos (le_refl _) hlt
      rw [if_neg (by simp [hp])]
      exact ih (by omega) (by omega) h3 (fun j hj1 hj2 => h4 j (by omega) hj2)

theorem drop_takeWhile_len (p : Char → Bool) :
    ∀ l : Str, l.drop (l.takeWhile p).length = l.dropWhile p := by
  intro l
  induction l with
  | nil => rfl
  | cons a t ih =>
    by_cases hp : p a = true
    · simp [List.takeWhile_cons, List.dropWhile_cons, hp, ih]
    · simp [List.takeWhile_cons, List.dropWhile_cons, hp]

theorem toggle_uncomment_of_shape (I R : Str)
    (hws : ∀ a ∈ I, isJsWhitespace a = true) :
    toggleLineCommentText ['/', '/'] (I ++ ['/', '/', ' '] ++ R) = I ++ R := by
  have hslash : isJsWhitespace '/' = false := rfl
  have hMne : ∀ X : Str, strStarts ['/', '/'] ('/' :: '/' :: X) = true := by
    intro X
    simp [strStarts]
  have hcond : strStarts ['/', '/'] (trimStr (I ++ ['/', '/', ' '] ++ R)) = true := by
    unfold trimStr
    rw [List.append_assoc, dropWhile_append_all hws]
    rw [show List.dropWhile isJsWhitespace (['/', '/', ' '] ++ R) =
      '/' :: '/' :: ' ' :: R from by
        show List.dropWhile isJsWhitespace ('/' :: '/' :: ' ' :: R) = _
        rw [List.dropWhile_cons, if_neg (by decide)]]
    rw [show ('/' :: '/' :: ' ' :: R : Str).reverse =
      (' ' :: R : Str).reverse ++ ['/', '/'] from by simp]
    by_cases hall : ∀ a ∈ (' ' :: R : Str).reverse, isJsWhitespace a = true
    · rw [dropWhile_append_all hall]
      decide
    · have hne : ∃ a ∈ (' ' :: R : Str).reverse, isJsWhitespace a = false := by
        push_neg at hall
        obtain ⟨a, ha, hpa⟩ := hall
        refine ⟨a, ha, ?_⟩
        cases hx : isJsWhitespace a
        · rfl
        · exact absurd hx hpa
      rw [dropWhile_append_not_all hne, List.reverse_append]
      exact hMne _
  have hidx : indexOfFrom (I ++ ['/', '/', ' '] ++ R) ['/', '/'] 0 = some I.length := by
    unfold indexOfFrom
    apply firstPosAux_eq_some (Nat.zero_le _)
    · simp [List.length_append]
      omega
    · rw [List.append_assoc, List.drop_left]
      exact hMne (' ' :: R)
    · intro j _ hjI
      rw [List.append_assoc, List.drop_append_of_le_length (by omega),
        List.drop_eq_getElem_cons hjI]
      have hwsj := hws _ (List.getElem_mem hjI)
      have hne : ¬ ('/' : Char) = I[j] := by
        intro heq
        rw [← heq, hslash] at hwsj
        exact absurd hwsj (by simp)
      simp [strStarts, hne]
  have hn : I.length ≤ (I ++ ['/', '/', ' '] ++ R).length := by
    simp [List.length_append]
  have hsub1 : jsSubstring (I ++ ['/', '/', ' '] ++ R) 0 (I.length : Int) = I := by
    unfold jsSubstring
    simp only [Int.toNat_zero, Int.toNat_natCast, Nat.zero_min,
      Nat.min_eq_left hn, Nat.max_eq_right (Nat.zero_le _), List.drop_zero]
    rw [List.append_assoc]
    exact List.take_left I _
  have hsub2 : ∀ k : Int, k = ((I.length + 2 : Nat) : Int) →
      jsSubstring (I ++ ['/', '/', ' '] ++ R) k
        (((I ++ ['/', '/', ' '] ++ R).length : Nat) : Int) = ' ' :: R := by
    intro k hk
    subst hk
    unfold jsSubstring
    simp only [Int.toNat_natCast, Nat.min_self]
    have hlen2 : I.length + 2 ≤ (I ++ ['/', '/', ' '] ++ R).length := by
      simp [List.length_append]
    rw [Nat.min_eq_left hlen2, Nat.max_eq_right hlen2,
      Nat.min_eq_left hlen2, List.take_length]
    rw [List.append_assoc]
    rw [List.drop_append 2]
    rfl
  unfold toggleLineCommentText
  rw [if_pos hcond]
  simp only [hidx]
  rw [hsub1]
  rw [hsub2 _ (by push_cast; simp)]
  simp [dropOneLeadingWS, show isJsWhitespace ' ' = true by decide]

/-- C7: with the language set to JavaScript the comment marker is `"//"`;
toggling `"  foo();"` yields `"  // foo();"` and toggling again restores
`"  foo();"`.  In general (for any line whose trimmed text does not already
start with the marker) commenting inserts the marker plus one space
immediately after the line's leading indentation, and toggling twice is the
identity — the uncomment pass removes that first marker occurrence plus the
one following whitespace character. -/
theorem toggleLineComment_spec (line : Str)
    (h : strStarts ['/', '/'] (trimStr line) = false) :
    getCommentSyntax (some "javascript".toList) = "//".toList ∧
    toggleLineCommentText "//".toList "  foo();".toList = "  // foo();".toList ∧
    toggleLineCommentText "//".toList "  // foo();".toList = "  foo();".toList ∧
    toggleLineCommentText ['/', '/'] line =
      line.takeWhile isJsWhitespace ++ ['/', '/', ' '] ++
        line.dropWhile isJsWhitespace ∧
    toggleLineCommentText ['/', '/'] (toggleLineCommentText ['/', '/'] line)
      = line := by
  have hcomment : toggleLineCommentText ['/', '/'] line =
      line.takeWhile isJsWhitespace ++ ['/', '/', ' '] ++
        line.dropWhile isJsWhitespace := by
    unfold toggleLineCommentText
    rw [if_neg (by simp [h])]
    show List.takeWhile isJsWhitespace line ++ ['/', '/'] ++ [' '] ++
        List.drop (List.takeWhile isJsWhitespace line).length line = _
    rw [drop_takeWhile_len]
    simp
  refine ⟨by decide, by decide, by decide, hcomment, ?_⟩
  rw [hcomment,
    toggle_uncomment_of_shape (line.takeWhile isJsWhitespace)
      (line.dropWhile isJsWhitespace) (fun a ha => List.mem_takeWhile_imp ha),
    List.takeWhile_append_dropWhile]

theorem toggleLineComment_spec_witness :
    strStarts ['/', '/'] (trimStr "  foo();".toList) = false ∧
    (getCommentSyntax (some "javascript".toList) = "//".toList ∧
     toggleLineCommentText "//".toList "  foo();".toList = "  // foo();".toList ∧
     toggleLineCommentText "//".toList "  // foo();".toList = "  foo();".toList ∧
     toggleLineCommentText ['/', '/'] "  foo();".toList =
       "  foo();".toList.takeWhile isJsWhitespace ++ ['/', '/', ' '] ++
         "  foo();".toList.dropWhile isJsWhitespace ∧
     toggleLineCommentText ['/', '/']
       (toggleLineCommentText ['/', '/'] "  foo();".toList) = "  foo();".toList) :=
  ⟨by decide, toggleLineComment_spec "  foo();".toList (by decide)⟩

/-- C6 counterexample: for the document with the two lines `"  "` and
`"  "` and the selection `[0, 3]`, `outdentSelection` removes two spaces
from each line (`totalRemoved = 4`) and sets the selection head to
`3 - 4 = -1`, which PRECEDES the first affected line's start (offset 0):
the head, unlike the anchor, is not clamped. -/
theorem outdent_head_not_clamped_cex :
    outdentSelection [[' ', ' '], [' ', ' ']] 0 3 =
      some ([[], []], 0, -1) ∧
    (-1 : Int) < (lineStart [[' ', ' '], [' ', ' ']]
      (lineAtIdx [[' ', ' '], [' ', ' ']] 0) : Int) := by
  constructor
  · rfl
  · decide

theorem outdentLines_length :
    ∀ (lines : List Str) (i0 s e : Nat),
      (outdentLines lines i0 s e).1.length = lines.length := by
  intro lines
  induction lines with
  | nil => intro i0 s e; rfl
  | cons l rest ih =>
    intro i0 s e
    unfold outdentLines
    by_cases hc : s ≤ i0 ∧ i0 ≤ e
    · simp [hc, ih]
    · simp [hc, ih]

theorem outdentLines_getD :
    ∀ (lines : List Str) (i0 s e k : Nat),
      (outdentLines lines i0 s e).1.getD k [] =
        if s ≤ i0 + k ∧ i0 + k ≤ e then
          (lines.getD k []).drop (outdentRemoval (lines.getD k []))
        else lines.getD k [] := by
  intro lines
  induction lines with
  | nil =>
    intro i0 s e k
    show ([] : List Str).getD k [] = _
    have h0 : outdentRemoval [] = 0 := rfl
    split <;> simp [h0]
  | cons l rest ih =>
    intro i0 s e k
    unfold outdentLines
    cases k with
    | zero =>
      by_cases hc : s ≤ i0 ∧ i0 ≤ e
      · simp [hc]
      · simp [hc]
    | succ k' =>
      by_cases hc : s ≤ i0 ∧ i0 ≤ e
      · simp only [hc, and_self, if_true, List.getD_cons_succ]
        have := ih (i0 + 1) s e k'
        rw [show i0 + 1 + k' = i0 + (k' + 1) from by omega] at this
        simpa using this
      · simp only [hc, if_false, List.getD_cons_succ]
        have := ih (i0 + 1) s e k'
        rw [show i0 + 1 + k' = i0 + (k' + 1) from by omega] at this
        simpa [hc] using this

/-- C6 amended: whenever `outdentSelection` dispatches, every line in the
touched range loses exactly its priority-prefix (two spaces, else one tab,
else one space), lines outside the range are unchanged, the anchor shrinks
by the total removed but is clamped to the first affected line's start,
while the head shrinks by the total removed WITHOUT clamping (it may
precede the first affected line's start, as the counterexample shows). -/
theorem outdent_amended (lines : List Str) (selFrom selTo : Nat)
    (newLines : List Str) (a h : Int)
    (hd : outdentSelection lines selFrom selTo = some (newLines, a, h)) :
    newLines.length = lines.length ∧
    (∀ k, newLines.getD k [] =
       if lineAtIdx lines selFrom ≤ k ∧ k ≤ lineAtIdx lines selTo then
         (lines.getD k []).drop (outdentRemoval (lines.getD k []))
       else lines.getD k []) ∧
    0 < (outdentLines lines 0 (lineAtIdx lines selFrom)
      (lineAtIdx lines selTo)).2 ∧
    a = max ((lineStart lines (lineAtIdx lines selFrom) : Int))
      ((selFrom : Int) - (outdentLines lines 0 (lineAtIdx lines selFrom)
        (lineAtIdx lines selTo)).2) ∧
    (lineStart lines (lineAtIdx lines selFrom) : Int) ≤ a ∧
    h = (selTo : Int) - (outdentLines lines 0 (lineAtIdx lines selFrom)
      (lineAtIdx lines selTo)).2 := by
  unfold outdentSelection at hd
  by_cases hz : (outdentLines lines 0 (lineAtIdx lines selFrom)
      (lineAtIdx lines selTo)).2 = 0
  · rw [if_pos hz] at hd
    exact absurd hd (by simp)
  · rw [if_neg hz] at hd
    rw [Option.some_inj] at hd
    have hL := congrArg Prod.fst hd
    have hA := congrArg (fun t : List Str × Int × Int => t.2.1) hd
    have hH := congrArg (fun t : List Str × Int × Int => t.2.2) hd
    simp only at hL hA hH
    refine ⟨?_, ?_, by omega, hA.symm, ?_, hH.symm⟩
    · rw [← hL]
      exact outdentLines_length lines 0 _ _
    · intro k
      rw [← hL]
      have := outdentLines_getD lines 0 (lineAtIdx lines selFrom)
        (lineAtIdx lines selTo) k
      simpa using this
    · rw [← hA]
      exact le_max_left _ _

theorem outdent_amended_witness :
    outdentSelection [['a'], [' ', 'x']] 0 4 = some ([['a'], ['x']], 0, 3) ∧
    (([['a'], ['x']] : List Str).length = ([['a'], [' ', 'x']] : List Str).length ∧
     (∀ k, ([['a'], ['x']] : List Str).getD k [] =
        if lineAtIdx [['a'], [' ', 'x']] 0 ≤ k ∧
            k ≤ lineAtIdx [['a'], [' ', 'x']] 4 then
          (([['a'], [' ', 'x']] : List Str).getD k []).drop
            (outdentRemoval (([['a'], [' ', 'x']] : List Str).getD k []))
        else ([['a'], [' ', 'x']] : List Str).getD k []) ∧
     0 < (outdentLines [['a'], [' ', 'x']] 0 (lineAtIdx [['a'], [' ', 'x']] 0)
       (lineAtIdx [['a'], [' ', 'x']] 4)).2 ∧
     (0 : Int) = max ((lineStart [['a'], [' ', 'x']]
         (lineAtIdx [['a'], [' ', 'x']] 0) : Int))
       ((0 : Int) - (outdentLines [['a'], [' ', 'x']] 0
         (lineAtIdx [['a'], [' ', 'x']] 0) (lineAtIdx [['a'], [' ', 'x']] 4)).2) ∧
     (lineStart [['a'], [' ', 'x']] (lineAtIdx [['a'], [' ', 'x']] 0) : Int)
       ≤ (0 : Int) ∧
     (3 : Int) = (4 : Int) - (outdentLines [['a'], [' ', 'x']] 0
       (lineAtIdx [['a'], [' ', 'x']] 0) (lineAtIdx [['a'], [' ', 'x']] 4)).2) :=
  ⟨rfl, outdent_amended [['a'], [' ', 'x']] 0 4 [['a'], ['x']] 0 3 rfl⟩

theorem lexCompare_swap : ∀ a b : Str,
    lexCompare a b = Ordering.gt ↔ lexCompare b a = Ordering.lt := by
  intro a
  induction a with
  | nil =>
    intro b
    cases b with
    | nil => simp [lexCompare]
    | cons y ys => simp [lexCompare]
  | cons x xs ih =>
    intro b
    cases b with
    | nil => simp [lexCompare]
    | cons y ys =>
      show (if x < y then Ordering.lt else if y < x then Ordering.gt
          else lexCompare xs ys) = Ordering.gt ↔
        (if y < x then Ordering.lt else if x < y then Ordering.gt
          else lexCompare ys xs) = Ordering.lt
      by_cases h1 : x < y
      · have h2 : ¬ y < x := lt_asymm h1
        simp [h1, h2]
      · by_cases h2 : y < x
        · simp [h1, h2]
        · simp [h1, h2, ih ys]

theorem leAsc_total : ∀ a b : Str, leAsc a b = true ∨ leAsc b a = true := by
  intro a b
  by_cases h : lexCompare a b = Ordering.gt
  · right
    have := (lexCompare_swap a b).mp h
    simp [leAsc, this]
  · left
    simp [leAsc, h]

theorem leDesc_total : ∀ a b : Str, leDesc a b = true ∨ leDesc b a = true := by
  intro a b
  by_cases h : lexCompare b a = Ordering.gt
  · right
    have := (lexCompare_swap b a).mp h
    simp [leDesc, this]
  · left
    simp [leDesc, h]

theorem insertSorted_perm (le : Str → Str → Bool) (x : Str) :
    ∀ l : List Str, (insertSorted le x l).Perm (x :: l) := by
  intro l
  induction l with
  | nil => exact List.Perm.refl _
  | cons y t ih =>
    show (if le x y then x :: y :: t else y :: insertSorted le x t).Perm _
    by_cases hc : le x y = true
    · rw [if_pos hc]
    · rw [if_neg (by simp [hc])]
      exact (ih.cons y).trans (List.Perm.swap x y t)

theorem sortBy_perm (le : Str → Str → Bool) :
    ∀ l : List Str, (sortBy le l).Perm l := by
  intro l
  induction l with
  | nil => exact List.Perm.refl _
  | cons x t ih =>
    show (insertSorted le x (sortBy le t)).Perm _
    exact (insertSorted_perm le x (sortBy le t)).trans (ih.cons x)

theorem chain_insertSorted (le : Str → Str → Bool)
    (htot : ∀ a b, le a b = true ∨ le b a = true) (x : Str) :
    ∀ {l : List Str}, List.Chain' (fun a b => le a b = true) l →
      List.Chain' (fun a b => le a b = true) (insertSorted le x l) := by
  intro l
  induction l with
  | nil => intro _; simp [insertSorted]
  | cons y t ih =>
    intro hch
    show List.Chain' _ (if le x y then x :: y :: t else y :: insertSorted le x t)
    by_cases hc : le x y = true
    · rw [if_pos hc]
      exact List.Chain'.cons hc hch
    · rw [if_neg (by simp [hc])]
      have hyx : le y x = true := (htot x y).resolve_left hc
      have htail := (List.chain'_cons'.mp hch).2
      refine List.chain'_cons'.mpr ⟨?_, ih htail⟩
      intro z hz
      cases t with
      | nil =>
        simp [insertSorted] at hz
        subst hz
        exact hyx
      | cons w t' =>
        by_cases hxw : le x w = true
        · simp [insertSorted, hxw] at hz
          subst hz
          exact hyx
        · simp [insertSorted, hxw] at hz
          subst hz
          exact (List.chain'_cons.mp hch).1

theorem sortBy_sorted (le : Str → Str → Bool)
    (htot : ∀ a b, le a b = true ∨ le b a = true) :
    ∀ l : List Str, List.Chain' (fun a b => le a b = true) (sortBy le l) := by
  intro l
  induction l with
  | nil => simp [sortBy]
  | cons x t ih =>
    show List.Chain' _ (insertSorted le x (sortBy le t))
    exact chain_insertSorted le htot x ih

theorem sortBy_of_chain (le : Str → Str → Bool) :
    ∀ {l : List Str}, List.Chain' (fun a b => le a b = true) l →
      sortBy le l = l := by
  intro l
  induction l with
  | nil => intro _; rfl
  | cons x t ih =>
    intro hch
    show insertSorted le x (sortBy le t) = x :: t
    rw [ih (List.chain'_cons'.mp hch).2]
    cases t with
    | nil => rfl
    | cons y t' =>
      have hxy : le x y = true := (List.chain'_cons.mp hch).1
      simp [insertSorted, hxy]

theorem lineAt_start : ∀ (lines : List Str) (m : Nat), m < lines.length →
    lineAtIdx lines (lineStart lines m) = m := by
  intro lines
  induction lines with
  | nil => intro m hm; simp at hm
  | cons l rest ih =>
    intro m hm
    cases m with
    | zero => simp [lineStart, lineAtIdx]
    | succ m' =>
      have hrest : m' < rest.length := by simpa using hm
      have hls : lineStart (l :: rest) (m' + 1) =
          (l.length + 1) + lineStart rest m' := by
        simp [lineStart, List.take_succ_cons]
      rw [hls]
      show (if (l.length + 1) + lineStart rest m' ≤ l.length then 0
        else lineAtIdx rest ((l.length + 1) + lineStart rest m' - (l.length + 1)) + 1)
          = m' + 1
      rw [if_neg (by omega),
        show (l.length + 1) + lineStart rest m' - (l.length + 1) =
          lineStart rest m' from by omega, ih m' hrest]

theorem lineAt_end : ∀ (lines : List Str) (m : Nat), m < lines.length →
    lineAtIdx lines (lineStart lines m + (lines.getD m []).length) = m := by
  intro lines
  induction lines with
  | nil => intro m hm; simp at hm
  | cons l rest ih =>
    intro m hm
    cases m with
    | zero => simp [lineStart, lineAtIdx]
    | succ m' =>
      have hrest : m' < rest.length := by simpa using hm
      have hls : lineStart (l :: rest) (m' + 1) =
          (l.length + 1) + lineStart rest m' := by
        simp [lineStart, List.take_succ_cons]
      rw [hls, List.getD_cons_succ]
      show (if (l.length + 1) + lineStart rest m' + (rest.getD m' []).length ≤ l.length
          then 0
        else lineAtIdx rest ((l.length + 1) + lineStart rest m' +
          (rest.getD m' []).length - (l.length + 1)) + 1) = m' + 1
      rw [if_neg (by omega),
        show (l.length + 1) + lineStart rest m' + (rest.getD m' []).length -
          (l.length + 1) = lineStart rest m' + (rest.getD m' []).length from by omega,
        ih m' hrest]

theorem lineAtIdx_lt : ∀ (lines : List Str) (pos : Nat), lines ≠ [] →
    pos ≤ joinLen lines → lineAtIdx lines pos < lines.length := by
  intro lines
  induction lines with
  | nil => intro pos h; exact absurd rfl h
  | cons l rest ih =>
    intro pos _ hpos
    cases rest with
    | nil =>
      have hle : pos ≤ l.length := by simpa [joinLen] using hpos
      simp [lineAtIdx, hle]
    | cons l2 rest2 =>
      show (if pos ≤ l.length then 0
        else lineAtIdx (l2 :: rest2) (pos - (l.length + 1)) + 1) <
          (l :: l2 :: rest2).length
      by_cases hc : pos ≤ l.length
      · simp [hc]
      · rw [if_neg hc]
        have hj : pos ≤ l.length + 1 + joinLen (l2 :: rest2) := by
          simpa [joinLen] using hpos
        have hlt := ih (pos - (l.length + 1)) (by simp) (by omega)
        simp only [List.length_cons] at hlt ⊢
        omega

theorem joinLen_eq_zero : ∀ {S : List Str}, joinLen S = 0 → S = [] ∨ S = [[]] := by
  intro S h
  cases S with
  | nil => exact Or.inl rfl
  | cons l rest =>
    cases rest with
    | nil =>
      right
      have hl : l.length = 0 := by simpa [joinLen] using h
      rw [List.length_eq_zero.mp hl]
    | cons l2 r2 =>
      exfalso
      rw [show joinLen (l :: l2 :: r2) = l.length + 1 + joinLen (l2 :: r2)
        from rfl] at h
      omega

theorem seg_last : ∀ (S : List Str), S ≠ [] →
    lineStart S (S.length - 1) + (S.getD (S.length - 1) []).length = joinLen S := by
  intro S
  induction S with
  | nil => intro h; exact absurd rfl h
  | cons x rest ih =>
    intro _
    cases rest with
    | nil => simp [lineStart, joinLen]
    | cons y t =>
      have IH := ih (by simp)
      have hlen1 : (x :: y :: t : List Str).length - 1 = t.length + 1 := by simp
      have hlen2 : (y :: t : List Str).length - 1 = t.length := by simp
      rw [hlen1]
      rw [show lineStart (x :: y :: t) (t.length + 1) =
        (x.length + 1) + lineStart (y :: t) t.length from by
          simp [lineStart, List.take_succ_cons]]
      rw [List.getD_cons_succ]
      rw [show joinLen (x :: y :: t) = x.length + 1 + joinLen (y :: t) from rfl]
      rw [hlen2] at IH
      omega

theorem lineStart_append_add (A B : List Str) (n j : Nat) (hA : A.length = n) :
    lineStart (A ++ B) (n + j) = lineStart A n + lineStart B j := by
  subst hA
  unfold lineStart
  rw [List.take_append, List.map_append, List.sum_append, List.take_length]

theorem lineStart_append_of_le (A B : List Str) (i : Nat) (h : i ≤ A.length) :
    lineStart (A ++ B) i = lineStart A i := by
  unfold lineStart
  rw [List.take_append_of_le_length h]

theorem getD_append_add (A B : List Str) (n j : Nat) (hA : A.length = n) :
    (A ++ B).getD (n + j) [] = B.getD j [] := by
  subst hA
  rw [List.getD_append_right _ _ _ _ (Nat.le_add_right _ _)]
  congr 1
  omega

theorem extract_splice (A S B : List Str) (n : Nat) (hA : A.length = n)
    (hS : S ≠ []) :
    extractLines (A ++ (S ++ B)) n (n + S.length - 1) = S := by
  subst hA
  unfold extractLines
  rw [List.drop_left]
  have h1 : A.length + S.length - 1 + 1 - A.length = S.length := by
    have : 0 < S.length := List.length_pos.mpr hS
    omega
  rw [h1, List.take_left]

theorem sortRangeBy_some_inv (le : Str → Str → Bool) (lines : List Str)
    (s e : Nat) (d2 : List Str) (f2 t2 : Nat)
    (hd : sortRangeBy le lines s e = some (d2, f2, t2)) :
    extractLines lines s e ≠ sortBy le (extractLines lines s e) ∧
    d2 = lines.take s ++ sortBy le (extractLines lines s e) ++
      lines.drop (e + 1) ∧
    f2 = lineStart lines s ∧
    t2 = lineStart lines s + joinLen (sortBy le (extractLines lines s e)) := by
  simp only [sortRangeBy] at hd
  by_cases hchg : extractLines lines s e = sortBy le (extractLines lines s e)
  · rw [if_pos hchg] at hd
    exact absurd hd (by simp)
  · rw [if_neg hchg] at hd
    rw [Option.some_inj] at hd
    have h1 := congrArg Prod.fst hd
    have h2 := congrArg (fun t : List Str × Nat × Nat => t.2.1) hd
    have h3 := congrArg (fun t : List Str × Nat × Nat => t.2.2) hd
    simp only at h1 h2 h3
    exact ⟨hchg, h1.symm, h2.symm, h3.symm⟩

theorem sortLinesBy_second_none (le : Str → Str → Bool)
    (htot : ∀ a b, le a b = true ∨ le b a = true)
    (lines : List Str) (selFrom selTo : Nat) (d2 : List Str) (f2 t2 : Nat)
    (hne : lines ≠ []) (hsel : selFrom ≤ selTo) (hval : selTo ≤ joinLen lines)
    (hd : sortLinesBy le lines selFrom selTo = some (d2, f2, t2)) :
    sortLinesBy le d2 f2 t2 = none := by
  simp only [sortLinesBy] at hd
  set s := if selFrom = selTo then 0 else lineAtIdx lines selFrom with hsdef
  set e := if selFrom = selTo then lines.length - 1 else lineAtIdx lines selTo
    with hedef
  obtain ⟨hchg, hd2, hf2, ht2⟩ := sortRangeBy_some_inv le lines s e d2 f2 t2 hd
  set seg := extractLines lines s e with hsegdef
  set srt := sortBy le seg with hsrtdef
  have hslt : s < lines.length := by
    rw [hsdef]
    by_cases hempty : selFrom = selTo
    · rw [if_pos hempty]
      exact List.length_pos.mpr hne
    · rw [if_neg hempty]
      exact lineAtIdx_lt lines selFrom hne (le_trans hsel hval)
  have hsegne : seg ≠ [] := by
    intro h0
    apply hchg
    rw [hsrtdef] at *
    rw [h0]
    rfl
  have hperm : srt.Perm seg := by
    rw [hsrtdef]
    exact sortBy_perm le seg
  have hsrtne : srt ≠ [] := by
    intro h0
    apply hsegne
    have hl := hperm.length_eq
    rw [h0] at hl
    exact List.length_eq_zero.mp hl.symm
  have hkpos : 1 ≤ srt.length := List.length_pos.mpr hsrtne
  have hjoinpos : 1 ≤ joinLen srt := by
    by_contra h0
    push_neg at h0
    have h00 : joinLen srt = 0 := by omega
    rcases joinLen_eq_zero h00 with h1 | h1
    · exact hsrtne h1
    · have hseg1 : seg = [[]] := by
        apply List.perm_singleton.mp
        rw [← h1]
        exact hperm.symm
      apply hchg
      rw [hseg1, hsrtdef, hseg1]
      rfl
  have htakelen : (lines.take s).length = s := by
    rw [List.length_take]
    exact Nat.min_eq_left (le_of_lt hslt)
  have hd2' : d2 = lines.take s ++ (srt ++ lines.drop (e + 1)) := by
    rw [hd2, List.append_assoc]
  have hd2len : s + srt.length ≤ d2.length := by
    rw [hd2', List.length_append, htakelen, List.length_append]
    omega
  have hstart_take : lineStart (lines.take s) s = lineStart lines s := by
    unfold lineStart
    rw [List.take_take, Nat.min_self]
  have hstart2 : lineStart d2 s = lineStart lines s := by
    rw [hd2', lineStart_append_of_le _ _ s (le_of_eq htakelen.symm), hstart_take]
  have hs2 : lineAtIdx d2 f2 = s := by
    rw [hf2, ← hstart2]
    exact lineAt_start d2 s (by omega)
  have hstart_add : lineStart d2 (s + (srt.length - 1)) =
      lineStart lines s + lineStart srt (srt.length - 1) := by
    rw [hd2', lineStart_append_add (lines.take s) _ s (srt.length - 1) htakelen,
      lineStart_append_of_le srt _ _ (by omega), hstart_take]
  have hgetd : d2.getD (s + (srt.length - 1)) [] = srt.getD (srt.length - 1) [] := by
    rw [hd2', getD_append_add (lines.take s) _ s _ htakelen,
      List.getD_append _ _ _ _ (by omega)]
  have hend_pos : lineStart d2 (s + (srt.length - 1)) +
      (d2.getD (s + (srt.length - 1)) []).length = t2 := by
    rw [hstart_add, hgetd, ht2]
    have := seg_last srt hsrtne
    omega
  have he2 : lineAtIdx d2 t2 = s + (srt.length - 1) := by
    rw [← hend_pos]
    apply lineAt_end
    rw [hd2', List.length_append, htakelen, List.length_append]
    omega
  have hf2t2 : ¬ f2 = t2 := by
    rw [hf2, ht2]
    omega
  have hfix : sortBy le srt = srt := by
    rw [hsrtdef]
    exact sortBy_of_chain le (sortBy_sorted le htot seg)
  have hextract : extractLines d2 s (s + (srt.length - 1)) = srt := by
    rw [hd2']
    rw [show s + (srt.length - 1) = s + srt.length - 1 from by omega]
    exact extract_splice (lines.take s) srt (lines.drop (e + 1)) s htakelen hsrtne
  simp only [sortLinesBy]
  rw [if_neg hf2t2, if_neg hf2t2, hs2, he2]
  simp only [sortRangeBy]
  rw [hextract, hfix, if_pos rfl]

/-- C8: `sortLinesAscending` and `sortLinesDescending` are idempotent —
when a first application dispatches an edit, re-applying the same sort to
the resulting document with the resulting selection finds the touched
lines already in order and dispatches no edit (`none`), leaving document
and undo history untouched. -/
theorem sortLines_idempotent (lines : List Str) (selFrom selTo : Nat)
    (hne : lines ≠ []) (hsel : selFrom ≤ selTo) (hval : selTo ≤ joinLen lines) :
    (∀ d2 f2 t2, sortLinesAscending lines selFrom selTo = some (d2, f2, t2) →
       sortLinesAscending d2 f2 t2 = none) ∧
    (∀ d2 f2 t2, sortLinesDescending lines selFrom selTo = some (d2, f2, t2) →
       sortLinesDescending d2 f2 t2 = none) :=
  ⟨fun d2 f2 t2 hd => sortLinesBy_second_none leAsc leAsc_total lines selFrom
      selTo d2 f2 t2 hne hsel hval hd,
   fun d2 f2 t2 hd => sortLinesBy_second_none leDesc leDesc_total lines selFrom
      selTo d2 f2 t2 hne hsel hval hd⟩

theorem sortLines_idempotent_witness :
    ([['b'], ['a']] : List Str) ≠ [] ∧ (0 : Nat) ≤ 0 ∧
    (0 : Nat) ≤ joinLen [['b'], ['a']] ∧
    ((∀ d2 f2 t2, sortLinesAscending [['b'], ['a']] 0 0 = some (d2, f2, t2) →
        sortLinesAscending d2 f2 t2 = none) ∧
     (∀ d2 f2 t2, sortLinesDescending [['b'], ['a']] 0 0 = some (d2, f2, t2) →
        sortLinesDescending d2 f2 t2 = none)) :=
  ⟨by decide, le_refl 0, Nat.zero_le _,
    sortLines_idempotent [['b'], ['a']] 0 0 (by decide) (le_refl 0) (Nat.zero_le _)⟩
